import Mathlib

/-!
Verification of `scripts/batch_replace.py`: a batch regex-replacement tool.

Shallow embedding conventions:
* Text, patterns, replacements, file paths and file contents are `Str := List Char`.
* Python's `re` module is external library code; it is modelled here by a
  faithful engine for the fragment of regular expressions the program's spec
  and tests exercise: literal characters, backslash-escaped punctuation
  (e.g. `\.`), the any-character item `.` (which does not match a newline),
  a leading `^` anchor and a trailing `$` anchor, interpreted in MULTILINE
  mode (`^` matches at the start of the buffer or after a newline, `$` at
  the end of the buffer or before a newline).  Patterns using constructs
  outside this fragment, and patterns Python itself rejects, fail to
  compile (`compilePat = none`); replacement strings are literal (the
  modelled patterns have no capture groups).  Matching is Python's scan:
  leftmost non-overlapping matches, advancing one character after an empty
  match.
* The filesystem is `FS := Str → Option Str` (path to content); exceptions
  become `Option`/`none`.
* `os.walk` output is modelled as the list of `(directory, filenames)`
  pairs it yields, directories given relative to the walk root with `/`
  separators (`[]` for the root itself).
-/

namespace BatchReplace

abbrev Str := List Char

/-- One item of a compiled pattern: a literal character or the
any-character metacharacter `.` (which does not match a newline). -/
inductive RItem where
  | lit : Char → RItem
  | dot : RItem
deriving DecidableEq

/-- A compiled pattern of the modelled regex fragment: an optional leading
`^` anchor, a sequence of single-character items, and an optional trailing
`$` anchor. -/
structure Pattern where
  anchorStart : Bool
  items : List RItem
  anchorEnd : Bool
deriving DecidableEq

/-- Punctuation characters that a backslash may escape to a literal. -/
def escapable (c : Char) : Bool :=
  c ∈ ['.', '^', '$', '*', '+', '?', '(', ')', '[', ']',
       '{', '}', '|', '\\', '/', '-']

/-- Characters that begin a regex construct outside the modelled fragment
(or are outright invalid where they stand, like an unmatched `(`). -/
def unsupportedChar (c : Char) : Bool :=
  c ∈ ['(', ')', '[', ']', '{', '}', '|', '*', '+', '?', '^', '$']

/-- Parse the body of a pattern (after any leading `^`): a list of items
plus whether the pattern ends in a `$` anchor.  `none` when the string
uses a construct outside the modelled fragment or is invalid. -/
def compileItems : Str → Option (List RItem × Bool)
  | [] => some ([], false)
  | ['$'] => some ([], true)
  | '\\' :: c :: rest =>
      if escapable c then
        (compileItems rest).map (fun p => (RItem.lit c :: p.1, p.2))
      else none
  | ['\\'] => none
  | c :: rest =>
      if unsupportedChar c then none
      else (compileItems rest).map
        (fun p => ((if c = '.' then RItem.dot else RItem.lit c) :: p.1, p.2))

/-- Compile a pattern string (model of `re.compile` on the fragment). -/
def compilePat (s : Str) : Option Pattern :=
  match s with
  | '^' :: rest => (compileItems rest).map (fun p => ⟨true, p.1, p.2⟩)
  | _ => (compileItems s).map (fun p => ⟨false, p.1, p.2⟩)

/-- Whether the scan position that starts `s` is at the end of a line:
end of buffer, or just before a newline (MULTILINE `$`). -/
def atLineEnd : Str → Bool
  | [] => true
  | c :: _ => c = '\n'

/-- Match the item sequence against a prefix of `s`; return the remaining
suffix on success. -/
def itemsMatch : List RItem → Str → Option Str
  | [], s => some s
  | RItem.lit c :: is, c' :: s => if c = c' then itemsMatch is s else none
  | RItem.dot :: is, c' :: s => if c' = '\n' then none else itemsMatch is s
  | _ :: _, [] => none

/-- Try to match `p` at the position starting `s`, where `ls` records
whether that position is at the start of a line (start of buffer or just
after a newline, MULTILINE `^`).  Returns the suffix after the match. -/
def matchHere (p : Pattern) (ls : Bool) (s : Str) : Option Str :=
  if p.anchorStart && !ls then none
  else match itemsMatch p.items s with
    | none => none
    | some rest => if p.anchorEnd && !atLineEnd rest then none else some rest

/-- The scan shared by `re.findall` and `re.sub`: walk the text left to
right, taking leftmost non-overlapping matches; each match contributes the
replacement `rep` to the output and one to the count; after an empty match
the scan advances one character.  `ls` is the line-start flag for the
current position. -/
def reScan (p : Pattern) (rep : Str) : Nat → Bool → Str → Str × Nat
  | 0, _, _ => ([], 0)
  | fuel + 1, ls, s =>
      match matchHere p ls s with
      | some rest =>
          if rest.length < s.length then
            let matched := s.take (s.length - rest.length)
            let out := reScan p rep fuel (matched.getLastD ' ' = '\n') rest
            (rep ++ out.1, out.2 + 1)
          else
            match s with
            | [] => (rep, 1)
            | c :: s2 =>
                let out := reScan p rep fuel (c = '\n') s2
                (rep ++ c :: out.1, out.2 + 1)
      | none =>
          match s with
          | [] => ([], 0)
          | c :: s2 =>
              let out := reScan p rep fuel (c = '\n') s2
              (c :: out.1, out.2)

/-- Model of `len(re.findall(pattern, text, flags=re.MULTILINE))` on a
compiled pattern: the number of non-overlapping matches.  The fuel
`length + 1` is never exhausted: every recursive step of the scan
consumes at least one character of the text. -/
def reCount (p : Pattern) (text : Str) : Nat :=
  (reScan p [] (text.length + 1) true text).2

/-- Model of `re.sub(pattern, replacement, text, flags=re.MULTILINE)` on a
compiled pattern: every non-overlapping match replaced by `rep`. -/
def reSub (p : Pattern) (rep : Str) (text : Str) : Str :=
  (reScan p rep (text.length + 1) true text).1

/-- Model of `len(re.findall(pattern, text, flags=re.MULTILINE))` with the pattern
given as a string; `none` when the pattern does not compile. -/
def re_findall_count (pattern : Str) (text : Str) : Option Nat :=
  (compilePat pattern).map (fun p => reCount p text)

/-- Model of `re.sub(pattern, replacement, text, flags=re.MULTILINE)` with
the pattern given as a string; `none` when the pattern does not compile. -/
def re_sub (pattern : Str) (replacement : Str) (text : Str) : Option Str :=
  (compilePat pattern).map (fun p => reSub p replacement text)

/-- Model of `apply_rules_to_text` (source lines 41–50): fold over the rules in
list order; for each rule, count the matches of its pattern in the current
text, then globally substitute, and record the count.  A pattern that
fails to compile raises `re.error` in Python, modelled as `none`. -/
def apply_rules_to_text : Str → List (Str × Str) → Option (Str × List Nat)
  | text, [] => some (text, [])
  | text, (pattern, replacement) :: rest =>
      match re_findall_count pattern text with
      | none => none
      | some count =>
          match re_sub pattern replacement text with
          | none => none
          | some text2 =>
              match apply_rules_to_text text2 rest with
              | none => none
              | some (finalText, counts) => some (finalText, count :: counts)

/-- The text after applying (the substitutions of) a prefix of the rules,
in order — the "current text" that the spec says rule `i`'s count is
computed against. -/
def textAfter : Str → List (Str × Str) → Option Str
  | text, [] => some text
  | text, (pattern, replacement) :: rest =>
      match re_sub pattern replacement text with
      | none => none
      | some text2 => textAfter text2 rest

/-! ## RuleSet loader -/

/-- Python file iteration followed by `rstrip("\n")` (source line 31):
split the content at newlines; a trailing empty segment (from a final
newline, or an empty file) yields no line. -/
def fileLines (content : Str) : List Str :=
  let segs := splitNl content
  if segs.getLast? = some [] then segs.dropLast else segs
where
  /-- Split at `'\n'`, keeping empty segments (`"a\nb" ↦ ["a","b"]`,
  `"a\n" ↦ ["a",""]`, `"" ↦ [""]`). -/
  splitNl : Str → List Str
    | [] => [[]]
    | c :: rest =>
        let segs := splitNl rest
        if c = '\n' then [] :: segs
        else match segs with
          | [] => [[c]]
          | s :: ss => (c :: s) :: ss

/-- The loop body of `load_rules_from_file` (source lines 32–37): consume
the stripped lines in steps of 3; whenever at least 2 lines remain in the
window, take line 0 as pattern and line 1 as replacement, keeping the rule
only if the pattern is non-empty; the window's third line is skipped
without being read. -/
def load_rules : List Str → List (Str × Str)
  | [] => []
  | [_] => []
  | [pattern, replacement] =>
      if pattern = [] then [] else [(pattern, replacement)]
  | pattern :: replacement :: _ :: rest =>
      (if pattern = [] then [] else [(pattern, replacement)]) ++ load_rules rest

/-- Model of `load_rules_from_file` (source lines 25–38) on a file's content. -/
def load_rules_from_file (content : Str) : List (Str × Str) :=
  load_rules (fileLines content)

/-- Consecutive windows of at most 3 elements, starting at index 0
(spec's description of the loader's partition). -/
def chunks3 : List α → List (List α)
  | [] => []
  | x :: xs => (x :: xs.take 2) :: chunks3 (xs.drop 2)
termination_by l => l.length
decreasing_by simp; omega

/-- The rule a single window contributes, per the spec: windows of fewer
than 2 lines are skipped, the pattern must be non-empty, and the third
line is never inspected. -/
def ruleOfWindow : List Str → Option (Str × Str)
  | pattern :: replacement :: _ =>
      if pattern = [] then none else some (pattern, replacement)
  | _ => none

/-! ## Filesystem model and the file processor -/

/-- The filesystem: a map from path to file content. -/
def FS := Str → Option Str

/-- Writing (creating or truncating) a file. -/
def fsWrite (fs : FS) (path content : Str) : FS :=
  fun q => if q = path then some content else fs q

/-- Model of `backup_file` (source lines 53–57): copy the file's bytes to the
path with the literal `.backup` suffix appended. -/
def backup_file (fs : FS) (path : Str) : FS :=
  match fs path with
  | none => fs
  | some content => fsWrite fs (path ++ ".backup".toList) content

/-- Model of `process_file` (source lines 60–84): read the file (an unreadable
file raises, modelled `none`), apply the rules (a bad pattern raises,
modelled `none`); if the text changed: in dry-run mode write nothing and
return `true`; otherwise back up first unless `overwrite`, then write the
new text and return `true`; if the text is unchanged, return `false`. -/
def process_file (rules : List (Str × Str)) (path : Str)
    (overwrite dry_run : Bool) (fs : FS) : Option (FS × Bool) :=
  match fs path with
  | none => none
  | some text =>
      match apply_rules_to_text text rules with
      | none => none
      | some (new_text, _counts) =>
          if new_text ≠ text then
            if dry_run then some (fs, true)
            else
              let fs1 := if overwrite then fs else backup_file fs path
              some (fsWrite fs1 path new_text, true)
          else some (fs, false)

/-! ## File selector -/

/-- The `os.walk` output: each directory the walk visits paired with its
filenames, the directory path relative to the root (`[]` for the root),
`/`-separated. -/
abbrev Walk := List (Str × List Str)

/-- Model of `os.path.join(dirpath, fn)` relative to the root, already
`/`-normalized (model of `os.path.relpath(...).replace(os.sep, "/")`). -/
def joinRel (dir fn : Str) : Str :=
  if dir = [] then fn else dir ++ '/' :: fn

/-- Model of `re.search(compiled, s)` as a Boolean: does the pattern
match at some position of `s`?  `ls` is the line-start flag of the
current position. -/
def reSearch (p : Pattern) (ls : Bool) : Str → Bool
  | [] => (matchHere p ls []).isSome
  | c :: s => (matchHere p ls (c :: s)).isSome || reSearch p (c = '\n') s

/-- Model of `iter_files_with_regex` (source lines 87–98): walk the tree and
collect, in walk order, every file whose `/`-normalized relative path the
compiled regex matches somewhere (search semantics).  Files are returned
by their relative path (the root prefix of the absolute path is common to
all entries). -/
def iter_files_with_regex (p : Pattern) (walk : Walk) : List Str :=
  walk.flatMap (fun d =>
    d.2.filterMap (fun fn =>
      let rel := joinRel d.1 fn
      if reSearch p true rel then some rel else none))

/-- All files the walk yields, as relative paths (the selector's input
universe). -/
def walkFiles (walk : Walk) : List Str :=
  walk.flatMap (fun d => d.2.map (joinRel d.1))

/-! ## Orchestrator -/

/-- Model of `os.path.basename` on a `/`-separated path: the suffix after the last
separator. -/
def basename (p : Str) : Str :=
  p.foldl (fun acc c => if c = '/' then [] else acc ++ [c]) []

/-- Code-point lexicographic `≤` on strings (Python's `str` order, used
by `list.sort(key=...)`). -/
def strLe : Str → Str → Bool
  | [], _ => true
  | _ :: _, [] => false
  | a :: as, b :: bs => if a = b then strLe as bs else decide (a < b)

/-- Insert a path into a basename-sorted list, before the first entry
whose basename is ≥ its own — so an earlier element precedes later ones
with the same basename. -/
def insertByBasename (x : Str) : List Str → List Str
  | [] => [x]
  | y :: ys =>
      if strLe (basename x) (basename y) then x :: y :: ys
      else y :: insertByBasename x ys

/-- Model of `rules_files.sort(key=os.path.basename)` (source line 137): Python's
stable sort by basename, realised as a stable insertion sort. -/
def sortByBasename (l : List Str) : List Str :=
  l.foldr insertByBasename []

/-- The inner loop of `main` (source lines 158–160): process every target
file with the given rules, threading the filesystem and counting the
files reported changed. -/
def runTargets (rules : List (Str × Str)) :
    List Str → Bool → Bool → FS → Option (FS × Nat)
  | [], _, _, fs => some (fs, 0)
  | t :: ts, ow, dr, fs =>
      match process_file rules t ow dr fs with
      | none => none
      | some (fs1, changed) =>
          match runTargets rules ts ow dr fs1 with
          | none => none
          | some (fs2, n) => some (fs2, (if changed then 1 else 0) + n)

/-- The outer loop of `main` (source lines 154–160): for each rules file
in order, load its rules from the filesystem (a missing rules file
raises, modelled `none`) and run them over all target files, accumulating
the total number of changed reports. -/
def runAll : List Str → List Str → Bool → Bool → FS → Option (FS × Nat)
  | [], _, _, _, fs => some (fs, 0)
  | rp :: rest, targets, ow, dr, fs =>
      match fs rp with
      | none => none
      | some content =>
          let rules := load_rules_from_file content
          match runTargets rules targets ow dr fs with
          | none => none
          | some (fs1, n1) =>
              match runAll rest targets ow dr fs1 with
              | none => none
              | some (fs2, n2) => some (fs2, n1 + n2)

/-- The observable outcome of a run of `main`: the process exit code
(`0` from falling off the end, `1`/`2` from `SystemExit`), the reported
total of file modifications, and the final filesystem.  `none` models an
uncaught exception. -/
structure MainOutcome where
  exitCode : Nat
  totalChanged : Nat
  fs : FS

/-- Model of `main` (source lines 101–166) after argument parsing: select the
rules files (exit 1 on an invalid rules regex, exit 2 on an empty
selection), sort them by basename, select the target files (exit 1 on an
invalid target regex, exit 2 on an empty selection), then apply every
rules file to every target file. -/
def mainRun (rulesRegex targetRegex : Str) (overwrite dryRun : Bool)
    (walk : Walk) (fs : FS) : Option MainOutcome :=
  match compilePat rulesRegex with
  | none => some ⟨1, 0, fs⟩
  | some rp =>
      let rulesFiles := iter_files_with_regex rp walk
      if rulesFiles = [] then some ⟨2, 0, fs⟩
      else
        let sortedRules := sortByBasename rulesFiles
        match compilePat targetRegex with
        | none => some ⟨1, 0, fs⟩
        | some tp =>
            let targets := iter_files_with_regex tp walk
            if targets = [] then some ⟨2, 0, fs⟩
            else
              match runAll sortedRules targets overwrite dryRun fs with
              | none => none
              | some (fs1, total) => some ⟨0, total, fs1⟩

/-- The per-pair `changed` flags of a run, in execution order (spec-side
reconstruction of what the accumulated total counts). -/
def runFlags : List Str → List Str → Bool → Bool → FS → List Bool
  | [], _, _, _, _ => []
  | rp :: rest, targets, ow, dr, fs =>
      match fs rp with
      | none => []
      | some content =>
          let rules := load_rules_from_file content
          match runTargets rules targets ow dr fs with
          | none => targetFlags rules targets ow dr fs
          | some (fs1, _) =>
              targetFlags rules targets ow dr fs ++ runFlags rest targets ow dr fs1
where
  /-- The `changed` flags of one rules file's pass over the targets. -/
  targetFlags (rules : List (Str × Str)) :
      List Str → Bool → Bool → FS → List Bool
    | [], _, _, _ => []
    | t :: ts, ow, dr, fs =>
        match process_file rules t ow dr fs with
        | none => []
        | some (fs1, changed) => changed :: targetFlags rules ts ow dr fs1

/-! ## Concrete fixtures used by witnesses -/

/-- The empty filesystem. -/
def emptyFS : FS := fun _ => none

/-- A filesystem holding exactly one file. -/
def fsSingle (path content : Str) : FS :=
  fun q => if q = path then some content else none

/-! ## Lemmas -/

/-- Appending `.backup` changes a path. -/
theorem path_ne_backup (p : Str) : p ≠ p ++ ".backup".toList := by
  intro h
  have hl := congrArg List.length h
  simp [String.toList] at hl

/-- Unfolding `load_rules` on a window with at least two lines. -/
theorem load_rules_cons2 (p r : Str) (rest : List Str) :
    load_rules (p :: r :: rest)
      = (if p = [] then [] else [(p, r)]) ++ load_rules rest.tail := by
  cases rest with
  | nil => by_cases hp : p = [] <;> simp [load_rules, hp]
  | cons s t => simp [load_rules]

/-- The loader realises the spec's window description: `load_rules` is the
window-wise `ruleOfWindow` over the 3-line chunks of the input. -/
theorem load_rules_eq_chunks (lines : List Str) :
    load_rules lines = (chunks3 lines).filterMap ruleOfWindow := by
  suffices h : ∀ (n : Nat) (l : List Str), l.length ≤ n →
      load_rules l = (chunks3 l).filterMap ruleOfWindow from
    h lines.length lines le_rfl
  intro n
  induction n with
  | zero =>
      intro l hl
      have : l = [] := List.length_eq_zero.mp (Nat.le_zero.mp hl)
      subst this
      simp [load_rules, chunks3]
  | succ n ih =>
      intro l hl
      match l with
      | [] => simp [load_rules, chunks3]
      | [x] => simp [load_rules, chunks3, ruleOfWindow]
      | p :: r :: rest =>
        rw [load_rules_cons2, chunks3]
        have htail : (r :: rest).drop 2 = rest.tail := by
          cases rest <;> rfl
        have hrec : load_rules rest.tail
            = (chunks3 rest.tail).filterMap ruleOfWindow := by
          apply ih
          cases rest <;> simp at hl ⊢
          all_goals omega
        rw [htail, hrec]
        by_cases hp : p = [] <;>
          simp [List.filterMap_cons, ruleOfWindow, hp, List.take]

/-- Filtering a guarded `filterMap` is a `filter` over the mapped list. -/
theorem filterMap_guard (pred : α → Bool) (j : β → α) (l : List β) :
    l.filterMap (fun x => if pred (j x) then some (j x) else none)
      = (l.map j).filter pred := by
  induction l with
  | nil => rfl
  | cons x xs ih => by_cases h : pred (j x) <;> simp [h, ih]

/-- Reflexivity of `strLe`. -/
theorem strLe_refl (a : Str) : strLe a a = true := by
  induction a with
  | nil => rfl
  | cons x xs ih => simp [strLe, ih]

/-- Totality of `strLe`. -/
theorem strLe_total (a b : Str) : strLe a b = true ∨ strLe b a = true := by
  induction a generalizing b with
  | nil => exact Or.inl rfl
  | cons x xs ih =>
      cases b with
      | nil => exact Or.inr rfl
      | cons y ys =>
          by_cases hxy : x = y
          · subst hxy
            rcases ih ys with h | h
            · exact Or.inl (by simp [strLe, h])
            · exact Or.inr (by simp [strLe, h])
          · rcases lt_trichotomy x y with h | h | h
            · exact Or.inl (by simp [strLe, hxy, h])
            · exact absurd h hxy
            · exact Or.inr (by simp [strLe, Ne.symm hxy, h])

/-- Inserting into a basename-chain-sorted list keeps it chain-sorted. -/
theorem chain_insertByBasename (x : Str) (l : List Str)
    (h : List.Chain' (fun a b => strLe (basename a) (basename b) = true) l) :
    List.Chain' (fun a b => strLe (basename a) (basename b) = true)
      (insertByBasename x l) := by
  induction l with
  | nil => simp [insertByBasename]
  | cons y ys ih =>
      simp only [insertByBasename]
      by_cases hxy : strLe (basename x) (basename y) = true
      · rw [if_pos hxy]
        exact h.cons hxy
      · rw [if_neg hxy]
        have hyx : strLe (basename y) (basename x) = true :=
          (strLe_total (basename x) (basename y)).resolve_left hxy
        have htail : List.Chain'
            (fun a b => strLe (basename a) (basename b) = true) ys := h.tail
        cases ys with
        | nil => simp [insertByBasename, hyx]
        | cons z zs =>
            refine (ih htail).cons' ?_
            intro w hw
            simp only [insertByBasename] at hw
            by_cases hxz : strLe (basename x) (basename z) = true
            · rw [if_pos hxz] at hw
              simp only [List.head?_cons, Option.mem_def, Option.some.injEq] at hw
              subst hw
              exact hyx
            · rw [if_neg hxz] at hw
              simp only [List.head?_cons, Option.mem_def, Option.some.injEq] at hw
              subst hw
              exact List.chain'_cons.mp h |>.1

/-- The sort of the orchestrator is chain-sorted by basename. -/
theorem chain_sortByBasename (l : List Str) :
    List.Chain' (fun a b => strLe (basename a) (basename b) = true)
      (sortByBasename l) := by
  induction l with
  | nil => simp [sortByBasename]
  | cons x xs ih => exact chain_insertByBasename x _ ih

/-- Filtering by an exact basename commutes with insertion: the inserted
element lands in front of every element with the same basename, and the
others keep their places. -/
theorem filter_insertByBasename (x : Str) (key : Str) (l : List Str) :
    (insertByBasename x l).filter (fun z => decide (basename z = key))
      = if basename x = key
          then x :: l.filter (fun z => decide (basename z = key))
          else l.filter (fun z => decide (basename z = key)) := by
  induction l with
  | nil => by_cases h : basename x = key <;> simp [insertByBasename, h]
  | cons y ys ih =>
      simp only [insertByBasename]
      by_cases hxy : strLe (basename x) (basename y) = true
      · rw [if_pos hxy]
        by_cases hx : basename x = key <;> simp [hx, List.filter_cons]
      · rw [if_neg hxy]
        have hyNe : basename y ≠ basename x := by
          intro he
          exact hxy (he ▸ strLe_refl (basename x))
        by_cases hx : basename x = key
        · have hy : ¬ basename y = key := fun he => hyNe (he.trans hx.symm)
          simp [List.filter_cons, hy, ih, hx]
        · by_cases hy : basename y = key <;>
            simp [List.filter_cons, hy, ih, hx]

/-- The orchestrator's sort is stable: for each basename, the entries
with that basename appear in the sorted output in their original relative
order. -/
theorem filter_sortByBasename (l : List Str) (key : Str) :
    (sortByBasename l).filter (fun z => decide (basename z = key))
      = l.filter (fun z => decide (basename z = key)) := by
  induction l with
  | nil => rfl
  | cons x xs ih =>
      show (insertByBasename x (sortByBasename xs)).filter _ = _
      rw [filter_insertByBasename]
      by_cases hx : basename x = key <;> simp [List.filter_cons, hx, ih]

/-- Insertion is a permutation with consing. -/
theorem perm_insertByBasename (x : Str) (l : List Str) :
    (insertByBasename x l).Perm (x :: l) := by
  induction l with
  | nil => simp [insertByBasename]
  | cons y ys ih =>
      simp only [insertByBasename]
      by_cases hxy : strLe (basename x) (basename y) = true
      · rw [if_pos hxy]
      · rw [if_neg hxy]
        exact (ih.cons y).trans (List.Perm.swap x y ys)

/-- The orchestrator's sort is a permutation of the selection. -/
theorem perm_sortByBasename (l : List Str) : (sortByBasename l).Perm l := by
  induction l with
  | nil => rfl
  | cons x xs ih =>
      exact (perm_insertByBasename x (sortByBasename xs)).trans (ih.cons x)

/-- The count accumulated over one rules file's pass equals the number of
`true` flags of that pass. -/
theorem runTargets_count (rules : List (Str × Str)) (tfs : List Str)
    (ow dr : Bool) (fs fs1 : FS) (n : Nat)
    (h : runTargets rules tfs ow dr fs = some (fs1, n)) :
    n = (runFlags.targetFlags rules tfs ow dr fs).count true := by
  induction tfs generalizing fs fs1 n with
  | nil =>
      simp [runTargets] at h
      simp [runFlags.targetFlags, ← h.2]
  | cons t ts ih =>
      simp only [runTargets] at h
      cases hp : process_file rules t ow dr fs with
      | none => rw [hp] at h; cases h
      | some out =>
          obtain ⟨fsa, changed⟩ := out
          rw [hp] at h
          dsimp only at h
          cases hr : runTargets rules ts ow dr fsa with
          | none => rw [hr] at h; cases h
          | some out2 =>
              obtain ⟨fsb, m⟩ := out2
              rw [hr] at h
              dsimp only at h
              have hn : (if changed then 1 else 0) + m = n := by
                simpa using congrArg (fun z => (Prod.snd z)) (Option.some.inj h)
              simp only [runFlags.targetFlags, hp]
              rw [← hn, ih fsa fsb m hr]
              cases changed <;> simp [List.count_cons, Nat.add_comm]

/-- The total the orchestrator reports equals the number of
(rules file, target file) pairs whose processing reported `changed`. -/
theorem runAll_count (rfs : List Str) (tfs : List Str) (ow dr : Bool)
    (fs fs1 : FS) (n : Nat)
    (h : runAll rfs tfs ow dr fs = some (fs1, n)) :
    n = (runFlags rfs tfs ow dr fs).count true := by
  induction rfs generalizing fs fs1 n with
  | nil =>
      simp [runAll] at h
      simp [runFlags, ← h.2]
  | cons rp rest ih =>
      simp only [runAll] at h
      cases hc : fs rp with
      | none => rw [hc] at h; cases h
      | some content =>
          rw [hc] at h
          dsimp only at h
          cases hr : runTargets (load_rules_from_file content) tfs ow dr fs with
          | none => rw [hr] at h; cases h
          | some out =>
              obtain ⟨fsa, n1⟩ := out
              rw [hr] at h
              dsimp only at h
              cases ha : runAll rest tfs ow dr fsa with
              | none => rw [ha] at h; cases h
              | some out2 =>
                  obtain ⟨fsb, n2⟩ := out2
                  rw [ha] at h
                  dsimp only at h
                  have hn : n1 + n2 = n := by
                    simpa using congrArg (fun z => (Prod.snd z)) (Option.some.inj h)
                  simp only [runFlags, hc, hr]
                  rw [List.count_append, ← hn,
                    ← runTargets_count _ _ _ _ _ _ _ hr, ← ih fsa fsb n2 ha]

/-! ## Claim theorems -/

/-- C3: `load_rules` partitions the stripped lines into consecutive
3-line windows from index 0, turning each window with at least 2 lines
into the rule (line 0, line 1) unless the pattern line is empty, skipping
a short trailing window, never inspecting a window's third line
(`ruleOfWindow` ignores it), and preserving file order; hence a file of N
well-formed 3-line groups — in particular one whose last group lacks the
trailing separator line — yields an N-length RuleSet. -/
theorem c3_loader_window_partition :
    (∀ lines : List Str,
        load_rules lines = (chunks3 lines).filterMap ruleOfWindow)
    ∧ (∀ groups : List (Str × Str × Str),
        (∀ g ∈ groups, g.1 ≠ []) →
        load_rules (groups.flatMap (fun g => [g.1, g.2.1, g.2.2]))
          = groups.map (fun g => (g.1, g.2.1)))
    ∧ (∀ (groups : List (Str × Str × Str)) (p r : Str),
        (∀ g ∈ groups, g.1 ≠ []) → p ≠ [] →
        load_rules (groups.flatMap (fun g => [g.1, g.2.1, g.2.2]) ++ [p, r])
          = groups.map (fun g => (g.1, g.2.1)) ++ [(p, r)]) := by
  refine ⟨load_rules_eq_chunks, ?_, ?_⟩
  · intro groups h
    induction groups with
    | nil => simp [load_rules]
    | cons g gs ih =>
        have hg : g.1 ≠ [] := h g (by simp)
        simp only [List.flatMap_cons, List.cons_append, List.nil_append,
          List.map_cons]
        rw [load_rules_cons2]
        simp only [hg, if_neg, List.tail_cons, List.singleton_append, ite_false]
        rw [ih (fun x hx => h x (List.mem_cons_of_mem _ hx))]
  · intro groups p r h hp
    induction groups with
    | nil =>
        simp only [List.flatMap_nil, List.nil_append, List.map_nil]
        rw [load_rules_cons2]
        simp [hp, load_rules]
    | cons g gs ih =>
        have hg : g.1 ≠ [] := h g (by simp)
        simp only [List.flatMap_cons, List.cons_append, List.nil_append,
          List.map_cons]
        rw [load_rules_cons2]
        simp only [hg, if_neg, List.tail_cons, List.singleton_append, ite_false]
        rw [ih (fun x hx => h x (List.mem_cons_of_mem _ hx))]

/-- C3 witness: two well-formed groups, the second without its trailing
separator line, load as a 2-rule RuleSet in file order. -/
theorem c3_loader_window_partition_witness :
    load_rules (([("p1".toList, "r1".toList, "".toList)].flatMap
        (fun g => [g.1, g.2.1, g.2.2])) ++ ["p2".toList, "r2".toList])
      = [("p1".toList, "r1".toList), ("p2".toList, "r2".toList)] := by
  exact c3_loader_window_partition.2.2
    [("p1".toList, "r1".toList, "".toList)] "p2".toList "r2".toList
    (by decide) (by decide)

/-- C6: the selector returns exactly the walked files whose relative
`/`-separated path the pattern matches somewhere (search semantics); in
particular `\.txt$` over a tree holding `a.txt`, `a.txt.bak` and
`sub/b.txt` selects exactly `a.txt` and `sub/b.txt`. -/
theorem c6_selector_filters_by_search :
    (∀ (p : Pattern) (walk : Walk),
        iter_files_with_regex p walk
          = (walkFiles walk).filter (fun rel => reSearch p true rel))
    ∧ (compilePat "\\.txt$".toList).map
        (fun p => iter_files_with_regex p
          [([], ["a.txt".toList, "a.txt.bak".toList]),
           ("sub".toList, ["b.txt".toList])])
        = some ["a.txt".toList, "sub/b.txt".toList] := by
  constructor
  · intro p walk
    induction walk with
    | nil => rfl
    | cons d ds ih =>
        simp only [iter_files_with_regex, walkFiles, List.flatMap_cons,
          List.filter_append] at ih ⊢
        rw [filterMap_guard (fun rel => reSearch p true rel) (joinRel d.1) d.2, ih]
  · decide

/-- C1: `apply_rules_to_text` processes the rules strictly in list
order: whenever it succeeds, the returned text is the cumulative
substitution of all rules in order (`textAfter`), there is exactly one
count per rule in rule order, and the i-th count is the number of
non-overlapping MULTILINE matches of pattern i against the current text —
the text rewritten by rules 0..i-1, not the original input. -/
theorem c1_apply_counts_on_current_text (text : Str)
    (rules : List (Str × Str)) (res : Str × List Nat)
    (h : apply_rules_to_text text rules = some res) :
    textAfter text rules = some res.1
    ∧ res.2.length = rules.length
    ∧ ∀ i, i < rules.length →
        ∃ pr ti c, rules[i]? = some pr
          ∧ textAfter text (rules.take i) = some ti
          ∧ re_findall_count pr.1 ti = some c
          ∧ res.2[i]? = some c := by
  induction rules generalizing text res with
  | nil =>
      have hres : (text, ([] : List Nat)) = res := by
        simpa [apply_rules_to_text] using h
      subst hres
      exact ⟨rfl, rfl, fun i hi => absurd hi (by simp)⟩
  | cons hd rest ih =>
      obtain ⟨pat, rep⟩ := hd
      simp only [apply_rules_to_text] at h
      cases hc : re_findall_count pat text with
      | none => rw [hc] at h; cases h
      | some count =>
          rw [hc] at h
          dsimp only at h
          cases hs : re_sub pat rep text with
          | none => rw [hs] at h; cases h
          | some text2 =>
              rw [hs] at h
              dsimp only at h
              cases ha : apply_rules_to_text text2 rest with
              | none => rw [ha] at h; cases h
              | some res2 =>
                  rw [ha] at h
                  obtain ⟨finalText, counts⟩ := res2
                  have hres : (finalText, count :: counts) = res := by
                    simpa using h
                  subst hres
                  obtain ⟨hTA, hlen, hidx⟩ := ih text2 (finalText, counts) ha
                  refine ⟨?_, ?_, ?_⟩
                  · simpa [textAfter, hs] using hTA
                  · simpa using hlen
                  · intro i hi
                    cases i with
                    | zero => exact ⟨(pat, rep), text, count, by simp, rfl, hc, by simp⟩
                    | succ j =>
                        have hj : j < rest.length := by simpa using hi
                        obtain ⟨prj, tj, cj, h1, h2, h3, h4⟩ := hidx j hj
                        refine ⟨prj, tj, cj, ?_, ?_, h3, ?_⟩
                        · simpa using h1
                        · simpa [List.take_succ_cons, textAfter, hs] using h2
                        · simpa using h4

/-- C1 witness: a concrete successful run of the transformer, whose
final text agrees with the cumulative substitution `textAfter`. -/
theorem c1_apply_counts_on_current_text_witness :
    apply_rules_to_text "aab".toList
        [("a".toList, "b".toList), ("b".toList, "c".toList)]
      = some ("ccc".toList, [2, 3])
    ∧ textAfter "aab".toList
        [("a".toList, "b".toList), ("b".toList, "c".toList)]
      = some "ccc".toList := by
  refine ⟨by decide, ?_⟩
  exact (c1_apply_counts_on_current_text "aab".toList
    [("a".toList, "b".toList), ("b".toList, "c".toList)]
    ("ccc".toList, [2, 3]) (by decide)).1

/-- C7: the orchestrator processes the rules files in the order obtained
by stably sorting the selection by basename only (the sorted list is
basename-ordered, ties keep the selector-supplied relative order, and it
is a permutation of the selection), applies each rules file's RuleSet to
every target file, and reports as its total exactly the number of
(rules file, target file) pairs whose processing reported `changed`; a
single target changed by two rules files therefore counts twice, as the
closing concrete run with two rules files and one target file shows. -/
theorem c7_orchestrator_order_and_total :
    (∀ l : List Str,
        List.Chain' (fun a b => strLe (basename a) (basename b) = true)
          (sortByBasename l)
        ∧ (∀ key, (sortByBasename l).filter (fun z => decide (basename z = key))
            = l.filter (fun z => decide (basename z = key)))
        ∧ (sortByBasename l).Perm l)
    ∧ (∀ (rr tr : Str) (ow dr : Bool) (walk : Walk) (fs : FS) (rp tp : Pattern),
        compilePat rr = some rp →
        compilePat tr = some tp →
        iter_files_with_regex rp walk ≠ [] →
        iter_files_with_regex tp walk ≠ [] →
        mainRun rr tr ow dr walk fs
          = (runAll (sortByBasename (iter_files_with_regex rp walk))
              (iter_files_with_regex tp walk) ow dr fs).map
              (fun z => ⟨0, z.2, z.1⟩))
    ∧ (∀ (rfs tfs : List Str) (ow dr : Bool) (fs fs1 : FS) (n : Nat),
        runAll rfs tfs ow dr fs = some (fs1, n) →
        n = (runFlags rfs tfs ow dr fs).count true)
    ∧ (mainRun "rules".toList "txt".toList true false
          [([], ["a.rules".toList, "b.rules".toList, "t.txt".toList])]
          (fsWrite (fsWrite (fsWrite emptyFS
            "a.rules".toList "o\nx\n".toList)
            "b.rules".toList "x\ny\n".toList)
            "t.txt".toList "oo".toList)).map
        (fun o => (o.exitCode, o.totalChanged)) = some (0, 2) := by
  refine ⟨?_, ?_, runAll_count, ?_⟩
  · intro l
    exact ⟨chain_sortByBasename l, filter_sortByBasename l, perm_sortByBasename l⟩
  · intro rr tr ow dr walk fs rp tp hrr htr hrsel htsel
    simp only [mainRun, hrr, htr, if_neg hrsel, if_neg htsel]
    cases runAll (sortByBasename (iter_files_with_regex rp walk))
        (iter_files_with_regex tp walk) ow dr fs with
    | none => rfl
    | some out => rfl
  · rfl

/-- C7 witness: a concrete successful run whose total satisfies the
per-pair flag count. -/
theorem c7_orchestrator_order_and_total_witness :
    mainRun "rules".toList "txt".toList true false
        [([], ["a.rules".toList, "b.rules".toList, "t.txt".toList])]
        (fsWrite (fsWrite (fsWrite emptyFS
          "a.rules".toList "o\nx\n".toList)
          "b.rules".toList "x\ny\n".toList)
          "t.txt".toList "oo".toList)
      = (runAll (sortByBasename (iter_files_with_regex
            ⟨false, [.lit 'r', .lit 'u', .lit 'l', .lit 'e', .lit 's'], false⟩
            [([], ["a.rules".toList, "b.rules".toList, "t.txt".toList])]))
          (iter_files_with_regex
            ⟨false, [.lit 't', .lit 'x', .lit 't'], false⟩
            [([], ["a.rules".toList, "b.rules".toList, "t.txt".toList])])
          true false
          (fsWrite (fsWrite (fsWrite emptyFS
            "a.rules".toList "o\nx\n".toList)
            "b.rules".toList "x\ny\n".toList)
            "t.txt".toList "oo".toList)).map
          (fun z => ⟨0, z.2, z.1⟩) := by
  exact c7_orchestrator_order_and_total.2.1
    "rules".toList "txt".toList true false
    [([], ["a.rules".toList, "b.rules".toList, "t.txt".toList])]
    (fsWrite (fsWrite (fsWrite emptyFS
      "a.rules".toList "o\nx\n".toList)
      "b.rules".toList "x\ny\n".toList)
      "t.txt".toList "oo".toList)
    ⟨false, [.lit 'r', .lit 'u', .lit 'l', .lit 'e', .lit 's'], false⟩
    ⟨false, [.lit 't', .lit 'x', .lit 't'], false⟩
    (by decide) (by decide) (by decide) (by decide)

/-- C8 counterexample: with an empty walk (so the rules selection is
empty) and a target regex `(` that fails to compile, the program exits
with code 2, not the code 1 the claim requires for a regex that fails to
compile — the empty rules selection is detected before the target regex
is ever compiled. -/
theorem c8_counterexample :
    (mainRun "a".toList "(".toList false false [] emptyFS).map
        (fun o => (o.exitCode, o.totalChanged)) = some (2, 0)
    ∧ compilePat "(".toList = none
    ∧ (2 : Nat) ≠ 1 := by
  exact ⟨rfl, rfl, by decide⟩

/-- C8 (amended): the program exits with code 1 when the rules regex
fails to compile, or when the rules regex compiles, its selection is
non-empty, and the target regex fails to compile; it exits with code 2
when the rules regex compiles but selects no files, or when both regexes
compile, the rules selection is non-empty, and the target selection is
empty; in each case the filesystem is returned unmodified — no target
file has been written. -/
theorem c8_exit_codes (rr tr : Str) (ow dr : Bool) (walk : Walk) (fs : FS) :
    (compilePat rr = none →
        mainRun rr tr ow dr walk fs = some ⟨1, 0, fs⟩)
    ∧ (∀ rp, compilePat rr = some rp →
        iter_files_with_regex rp walk = [] →
        mainRun rr tr ow dr walk fs = some ⟨2, 0, fs⟩)
    ∧ (∀ rp, compilePat rr = some rp →
        iter_files_with_regex rp walk ≠ [] →
        compilePat tr = none →
        mainRun rr tr ow dr walk fs = some ⟨1, 0, fs⟩)
    ∧ (∀ rp tp, compilePat rr = some rp →
        iter_files_with_regex rp walk ≠ [] →
        compilePat tr = some tp →
        iter_files_with_regex tp walk = [] →
        mainRun rr tr ow dr walk fs = some ⟨2, 0, fs⟩) := by
  refine ⟨?_, ?_, ?_, ?_⟩
  · intro h
    simp [mainRun, h]
  · intro rp h hsel
    simp [mainRun, h, hsel]
  · intro rp h hsel htr
    simp [mainRun, h, if_neg hsel, htr]
  · intro rp tp h hsel htr htsel
    simp [mainRun, h, if_neg hsel, htr, htsel]

/-- C8 witness: each of the four exit paths hit on a concrete input:
invalid rules regex; empty rules selection; invalid target regex with a
non-empty rules selection; empty target selection. -/
theorem c8_exit_codes_witness :
    mainRun "(".toList "a".toList false false [] emptyFS
      = some ⟨1, 0, emptyFS⟩
    ∧ mainRun "b".toList "a".toList false false
        [([], ["a".toList])] emptyFS = some ⟨2, 0, emptyFS⟩
    ∧ mainRun "a".toList "(".toList false false
        [([], ["a".toList])] emptyFS = some ⟨1, 0, emptyFS⟩
    ∧ mainRun "a".toList "x".toList false false
        [([], ["a".toList])] emptyFS = some ⟨2, 0, emptyFS⟩ := by
  refine ⟨?_, ?_, ?_, ?_⟩
  · exact (c8_exit_codes "(".toList "a".toList false false [] emptyFS).1
      (by decide)
  · exact (c8_exit_codes "b".toList "a".toList false false
      [([], ["a".toList])] emptyFS).2.1
      ⟨false, [.lit 'b'], false⟩ (by decide) (by decide)
  · exact (c8_exit_codes "a".toList "(".toList false false
      [([], ["a".toList])] emptyFS).2.2.1
      ⟨false, [.lit 'a'], false⟩ (by decide) (by decide) (by decide)
  · exact (c8_exit_codes "a".toList "x".toList false false
      [([], ["a".toList])] emptyFS).2.2.2
      ⟨false, [.lit 'a'], false⟩ ⟨false, [.lit 'x'], false⟩
      (by decide) (by decide) (by decide) (by decide)

/-- C9: for every text, applying the empty rule list is the identity —
`apply_rules_to_text` returns the text unchanged and an empty list of
counts. -/
theorem c9_apply_empty_rules_identity (text : Str) :
    apply_rules_to_text text [] = some (text, []) := rfl

/-- C2 counterexample: on the text `"aab"` and the rules
`[("a","b"),("b","c")]`, `apply_rules_to_text` yields the text `"ccc"`
(with counts `[2, 3]`), not the `"ccb"` the claim states: rule 1 rewrites
`"aab"` to `"bbb"`, and rule 2 then rewrites every `"b"`. -/
theorem c2_counterexample :
    apply_rules_to_text "aab".toList
        [("a".toList, "b".toList), ("b".toList, "c".toList)]
      = some ("ccc".toList, [2, 3])
    ∧ "ccc".toList ≠ "ccb".toList := by
  exact ⟨by decide, by decide⟩

/-- C2 (amended): applying the two-rule RuleSet `[("a","b"),("b","c")]`
to the text `"aab"` yields the text `"ccc"` (and not `"bcb"`), because
each rule sees the output of the prior rules. -/
theorem c2_sequential_application :
    apply_rules_to_text "aab".toList
        [("a".toList, "b".toList), ("b".toList, "c".toList)]
      = some ("ccc".toList, [2, 3])
    ∧ "ccc".toList ≠ "bcb".toList := by
  exact ⟨by decide, by decide⟩

/-- C5: with `dry_run = true`, `process_file` returns the filesystem
unchanged (so the target file's bytes are untouched, no write and no
backup happen) and reports `true` exactly when the transformed text
differs from the original. -/
theorem c5_dry_run_no_write (rules : List (Str × Str)) (path : Str)
    (overwrite : Bool) (fs : FS) (text newText : Str) (counts : List Nat)
    (hread : fs path = some text)
    (happly : apply_rules_to_text text rules = some (newText, counts)) :
    process_file rules path overwrite true fs
      = some (fs, decide (newText ≠ text)) := by
  by_cases hnt : newText = text <;>
    simp [process_file, hread, happly, hnt]

/-- C5 witness: a concrete dry run (rule `a → b` on content `"aa"`)
changes nothing on disk and reports `true`. -/
theorem c5_dry_run_no_write_witness :
    process_file [("a".toList, "b".toList)] "f".toList false true
        (fsSingle "f".toList "aa".toList)
      = some (fsSingle "f".toList "aa".toList, true) := by
  have h := c5_dry_run_no_write [("a".toList, "b".toList)] "f".toList false
    (fsSingle "f".toList "aa".toList) "aa".toList "bb".toList [2]
    (by decide) (by decide)
  simpa using h

/-- C10: when applying the rules leaves the text unchanged,
`process_file` performs no write and no backup — the filesystem (hence
the file and any pre-existing backup) is returned untouched — and
reports `false`, for every combination of the `overwrite` and `dry_run`
flags. -/
theorem c10_unchanged_no_write (rules : List (Str × Str)) (path : Str)
    (overwrite dry_run : Bool) (fs : FS) (text : Str) (counts : List Nat)
    (hread : fs path = some text)
    (happly : apply_rules_to_text text rules = some (text, counts)) :
    process_file rules path overwrite dry_run fs = some (fs, false) := by
  simp [process_file, hread, happly]

/-- C10 witness: a concrete no-op run (rule `x → y` on content `"aa"`)
returns `false` and leaves the filesystem untouched. -/
theorem c10_unchanged_no_write_witness :
    process_file [("x".toList, "y".toList)] "f".toList true false
        (fsSingle "f".toList "aa".toList)
      = some (fsSingle "f".toList "aa".toList, false) := by
  exact c10_unchanged_no_write [("x".toList, "y".toList)] "f".toList true false
    (fsSingle "f".toList "aa".toList) "aa".toList [0]
    (by decide) (by decide)

/-- C4: when the transformed text differs and neither `overwrite` nor
`dry_run` is set, `process_file` creates `path ++ ".backup"` holding the
original bytes, writes the new text to `path`, touches no other path and
returns `true`; moreover in every run with `overwrite` or `dry_run` set,
or whose text is unchanged, the backup path is left exactly as it was.
(The model records the final filesystem; the backup is taken from the
pre-write content, reflecting the backup-before-write order.) -/
theorem c4_backup_then_write (rules : List (Str × Str)) (path : Str)
    (fs : FS) (text newText : Str) (counts : List Nat)
    (hread : fs path = some text)
    (happly : apply_rules_to_text text rules = some (newText, counts)) :
    (newText ≠ text →
      ∃ fs1, process_file rules path false false fs = some (fs1, true)
        ∧ fs1 (path ++ ".backup".toList) = some text
        ∧ fs1 path = some newText
        ∧ ∀ q, q ≠ path → q ≠ path ++ ".backup".toList → fs1 q = fs q)
    ∧ ∀ overwrite dry_run fs1 changed,
        process_file rules path overwrite dry_run fs = some (fs1, changed) →
        (overwrite = true ∨ dry_run = true ∨ newText = text) →
        fs1 (path ++ ".backup".toList) = fs (path ++ ".backup".toList) := by
  constructor
  · intro hne
    refine ⟨fsWrite (backup_file fs path) path newText, ?_, ?_, ?_, ?_⟩
    · simp [process_file, hread, happly, hne]
    · simp [fsWrite, backup_file, hread,
        (path_ne_backup path).symm, Ne.symm (path_ne_backup path)]
    · simp [fsWrite]
    · intro q hq hqb
      have hqb2 : ¬ q = path ++ ['.', 'b', 'a', 'c', 'k', 'u', 'p'] := by
        simpa using hqb
      simp [fsWrite, backup_file, hread, hq, hqb2]
  · intro overwrite dry_run fs1 changed hrun hcase
    by_cases hnt : newText = text
    · simp [process_file, hread, happly, hnt] at hrun
      rw [← hrun.1]
    · rcases hcase with how | hdr | h
      · subst how
        by_cases hdr : dry_run = true
        · simp [process_file, hread, happly, hnt, hdr] at hrun
          rw [← hrun.1]
        · simp [process_file, hread, happly, hnt,
            Bool.eq_false_iff.mpr hdr] at hrun
          rw [← hrun.1]
          simp [fsWrite, Ne.symm (path_ne_backup path)]
      · subst hdr
        simp [process_file, hread, happly, hnt] at hrun
        rw [← hrun.1]
      · exact absurd h hnt

/-- C4 witness: rule `a → b` on content `"aa"` with neither flag set:
the run writes `"bb"`, leaves `"aa"` at `f.backup`, and returns `true`;
with `overwrite` set, the backup path stays empty. -/
theorem c4_backup_then_write_witness :
    (∃ fs1, process_file [("a".toList, "b".toList)] "f".toList false false
          (fsSingle "f".toList "aa".toList) = some (fs1, true)
        ∧ fs1 ("f".toList ++ ".backup".toList) = some "aa".toList
        ∧ fs1 "f".toList = some "bb".toList
        ∧ ∀ q, q ≠ "f".toList → q ≠ "f".toList ++ ".backup".toList →
            fs1 q = fsSingle "f".toList "aa".toList q)
    ∧ ∀ fs1 changed,
        process_file [("a".toList, "b".toList)] "f".toList true false
            (fsSingle "f".toList "aa".toList) = some (fs1, changed) →
        fs1 ("f".toList ++ ".backup".toList)
          = fsSingle "f".toList "aa".toList ("f".toList ++ ".backup".toList) := by
  have h := c4_backup_then_write [("a".toList, "b".toList)] "f".toList
    (fsSingle "f".toList "aa".toList) "aa".toList "bb".toList [2]
    (by decide) (by decide)
  exact ⟨h.1 (by decide), fun fs1 changed hrun =>
    h.2 true false fs1 changed hrun (Or.inl rfl)⟩

end BatchReplace
